import Mathlib

/-!
Verification of the Apex-to-TypeScript extractor (`src/parser.rs`).

The extractor is regex-driven.  We shallowly embed the five concrete
regular expressions of `ApexParser::new` as specialised matchers over
`List Char`, mirroring the leftmost-first (backtracking-priority)
semantics of the `regex` crate on these particular patterns, and embed
`ApexParser::parse_file` and `ApexParser::parse_parameters` on top of
them.  Character classes are modelled over ASCII: the Rust `\w` and `\s`
classes are Unicode-aware, but on ASCII text (the only inputs the claims
exercise) they coincide with the definitions below.
-/

/-- Rust regex class `\w` restricted to ASCII: letters, digits, underscore. -/
def isWordChar (c : Char) : Bool :=
  c.isAlphanum || c == '_'

/-- Rust regex class `\s` restricted to ASCII: space, tab, newline, CR, VT, FF. -/
def isSpaceChar (c : Char) : Bool :=
  c == ' ' || c == '\t' || c == '\n' || c == '\r' || c == '\x0b' || c == '\x0c'

/-- Character class `[\w\s,]` used inside a generic-argument bracket. -/
def isGenericChar (c : Char) : Bool :=
  isWordChar c || isSpaceChar c || c == ','

/-- `leadsWith p t` decides whether `p` is an initial segment of `t`
(the literal-prefix test used by the matchers). -/
def leadsWith : List Char → List Char → Bool
  | [], _ => true
  | _ :: _, [] => false
  | a :: as, b :: bs => a == b && leadsWith as bs

/-- Consume the literal `p` at the front of `t`, returning the rest. -/
def dropLit (p t : List Char) : Option (List Char) :=
  if leadsWith p t then some (t.drop p.length) else none

/-- All decompositions `t = a ++ p ++ r`, returned as `(a ++ p, r)` in
left-to-right order of the occurrence of `p`.  This enumerates the
candidates of a lazy gap `[\s\S]*?` followed by the literal `p`
(shortest gap first), and its non-emptiness decides substring presence. -/
def splitsAfter (p : List Char) : List Char → List (List Char × List Char)
  | [] => if p.isEmpty then [([], [])] else []
  | c :: rest =>
      (if leadsWith p (c :: rest) then [(p, (c :: rest).drop p.length)] else [])
        ++ (splitsAfter p rest).map (fun ar => (c :: ar.1, ar.2))

/-- Substring test: does `p` occur somewhere inside `t`? -/
def hasSub (p t : List Char) : Bool :=
  !(splitsAfter p t).isEmpty

/-- Backtracking candidates of a greedy character-class quantifier: all
splits `t = a ++ r` where `a` is a prefix of the maximal `p`-run of `t`
and `a.length ≥ min`, longest `a` first (greedy priority order). -/
def runSplits (p : Char → Bool) (min : Nat) (t : List Char) : List (List Char × List Char) :=
  let n := (t.takeWhile p).length
  (List.range (n + 1)).reverse.filterMap fun k =>
    if min ≤ k then some (t.take k, t.drop k) else none

/- ----------------------------------------------------------------- -/
/- Data model: the record structures of `parser.rs`.                  -/
/- ----------------------------------------------------------------- -/

/-- `ApexParameter` of `parser.rs`. -/
structure ApexParameter where
  name : List Char
  param_type : List Char
deriving DecidableEq, Repr

/-- `ApexField` of `parser.rs`. -/
structure ApexField where
  name : List Char
  field_type : List Char
  is_optional : Bool
deriving DecidableEq, Repr

/-- `ApexMethod` of `parser.rs`. -/
structure ApexMethod where
  name : List Char
  return_type : List Char
  parameters : List ApexParameter
  is_static : Bool
deriving DecidableEq, Repr

/-- `ApexClass` of `parser.rs`. -/
structure ApexClass where
  name : List Char
  fields : List ApexField
  methods : List ApexMethod
deriving DecidableEq, Repr

/- ----------------------------------------------------------------- -/
/- `ApexParser::parse_parameters`                                     -/
/- ----------------------------------------------------------------- -/

/-- Rust `str::split(',')`: `n` commas yield `n + 1` segments, empty
segments included. -/
def splitOnComma : List Char → List (List Char)
  | [] => [[]]
  | c :: rest =>
      if c == ',' then [] :: splitOnComma rest
      else
        match splitOnComma rest with
        | s :: ss => (c :: s) :: ss
        | [] => [[c]]

/-- Rust `str::trim`: strip leading and trailing whitespace. -/
def trimChars (t : List Char) : List Char :=
  ((t.dropWhile isSpaceChar).reverse.dropWhile isSpaceChar).reverse

/-- Helper for `splitWs`: accumulates the current (reversed) token. -/
def splitWsAux : List Char → List Char → List (List Char)
  | cur, [] => if cur.isEmpty then [] else [cur.reverse]
  | cur, c :: rest =>
      if isSpaceChar c then
        if cur.isEmpty then splitWsAux [] rest
        else cur.reverse :: splitWsAux [] rest
      else splitWsAux (c :: cur) rest

/-- Rust `str::split_whitespace`: maximal non-whitespace runs, in order. -/
def splitWs (t : List Char) : List (List Char) :=
  splitWsAux [] t

/-- `ApexParser::parse_parameters`: split the raw parameter text on
commas; a segment whose trimmed whitespace-split form has at least two
tokens contributes `{ param_type := first, name := second }` (extra
tokens ignored); other segments are dropped.  An all-blank text returns
early with `[]`. -/
def parse_parameters (params_str : List Char) : List ApexParameter :=
  if (trimChars params_str).isEmpty then []
  else
    (splitOnComma params_str).filterMap fun param =>
      match splitWs (trimChars param) with
      | t :: n :: _ => some { name := n, param_type := t }
      | _ => none

/- ----------------------------------------------------------------- -/
/- The five regexes of `ApexParser::new`                              -/
/- ----------------------------------------------------------------- -/

/-- Token `/**`. -/
def docOpenTok : List Char := "/**".toList

/-- Token `*/`. -/
def docCloseTok : List Char := "*/".toList

/-- Token `@tsexport`. -/
def tsexportTok : List Char := "@tsexport".toList

/-- Token `@AuraEnabled`. -/
def auraTok : List Char := "@AuraEnabled".toList

/-- `annotation_regex.is_match`: the pattern
`/\*\*[\s\S]*?@tsexport[\s\S]*?\*/` matches somewhere in `t` iff the
three literals `/**`, `@tsexport`, `*/` occur in `t` in this order
(the lazy gaps `[\s\S]*?` accept arbitrary characters, so only the
in-order occurrence matters for `is_match`). -/
def markerGateIsMatch (t : List Char) : Bool :=
  (splitsAfter docOpenTok t).any fun x1 =>
    (splitsAfter tsexportTok x1.2).any fun x2 =>
      hasSub docCloseTok x2.2

/-- `aura_enabled_regex.is_match`: the pattern
`@AuraEnabled(?:\([^)]*\))?` matches somewhere in `t` iff the literal
`@AuraEnabled` occurs in `t` (the optional parenthesised tail can always
match empty, so it does not affect `is_match`). -/
def auraIsMatch (t : List Char) : Bool :=
  hasSub auraTok t

/-- Matcher for `class_regex` = `(?m)^\s*public\s+class\s+(\w+)` at one
start position, which must be a line start (`^`).  Every quantifier here
is determinised soundly: each `\s*`/`\s+` is followed by a literal whose
first character is not whitespace, and the trailing `(\w+)` ends the
pattern, so the greedy maximal run is the unique candidate. -/
def matchClassAt (t : List Char) : Option (List Char) := do
  let t1 := t.dropWhile isSpaceChar
  let t2 ← dropLit ("public".toList) t1
  let t3 ←
    match t2 with
    | c :: r => if isSpaceChar c then some (r.dropWhile isSpaceChar) else none
    | [] => none
  let t4 ← dropLit ("class".toList) t3
  let t5 ←
    match t4 with
    | c :: r => if isSpaceChar c then some (r.dropWhile isSpaceChar) else none
    | [] => none
  let w := t5.takeWhile isWordChar
  if w.isEmpty then none else some w

/-- All `(position, capture)` pairs where `class_regex` matches, in
increasing position order.  `atStart` records whether the current
position is a line start (offset 0 or just after a newline), which is
what the multi-line `^` anchor tests. -/
def classScanAux : Bool → Nat → List Char → List (Nat × List Char)
  | _, _, [] => []
  | atStart, pos, c :: rest =>
      (if atStart then (matchClassAt (c :: rest)).toList.map (fun cap => (pos, cap)) else [])
        ++ classScanAux (c == '\n') (pos + 1) rest

/-- Positions and captures of all `class_regex` matches of the text. -/
def classMatchPositions (t : List Char) : List (Nat × List Char) :=
  classScanAux true 0 t

/-- `class_regex.captures(content)` + group 1: the capture of the
leftmost match, if any. -/
def classCapture (t : List Char) : Option (List Char) :=
  (classMatchPositions t).head?.map Prod.snd

/- ----------------------------------------------------------------- -/
/- Member regex matchers (field and method patterns)                  -/
/- ----------------------------------------------------------------- -/

/-- Candidates of `\([^)]*\)` (the optional argument list of an
annotation token): consumed text and rest.  Greedy `[^)]*` candidates
are enumerated in priority order; only the one stopping at a `)` can
succeed, since the class excludes `)`. -/
def parenPart (t : List Char) : List (List Char × List Char) :=
  match t with
  | '(' :: u =>
      (runSplits (fun c => !(c == ')')) 0 u).filterMap fun ar =>
        match ar.2 with
        | ')' :: r2 => some ('(' :: ar.1 ++ [')'], r2)
        | _ => none
  | _ => []

/-- Candidates of `@\w+(?:\([^)]*\))?` in priority order (greedy `\w+`
longest first; the optional parenthesised part tried before skipped). -/
def annTokenCands (t : List Char) : List (List Char × List Char) :=
  match t with
  | '@' :: u =>
      (runSplits isWordChar 1 u).flatMap fun wr =>
        (parenPart wr.2 ++ [([], wr.2)]).map fun (pr : List Char × List Char) =>
          ('@' :: (wr.1 ++ pr.1), pr.2)
  | _ => []

/-- Candidates of `/\*\*[\s\S]*?\*/` in priority order: shortest lazy
gap (i.e. earliest closing `*/`) first. -/
def docCommentCands (t : List Char) : List (List Char × List Char) :=
  match dropLit docOpenTok t with
  | some u => (splitsAfter docCloseTok u).map fun ar => (docOpenTok ++ ar.1, ar.2)
  | none => []

/-- Candidates of the alternation `(?:/\*\*[\s\S]*?\*/|@\w+(?:\([^)]*\))?)`,
doc-comment branch first (alternation priority). -/
def annAltCands (t : List Char) : List (List Char × List Char) :=
  docCommentCands t ++ annTokenCands t

/-- Candidates of one iteration `^\s*(?:doc|@ann)\s*\n` of the
preceding-lines group, assuming the current position is a line start. -/
def oneAnnLine (t : List Char) : List (List Char × List Char) :=
  (runSplits isSpaceChar 0 t).flatMap fun w1 =>
    (annAltCands w1.2).flatMap fun a =>
      (runSplits isSpaceChar 0 a.2).flatMap fun w2 =>
        match w2.2 with
        | '\n' :: r4 => [(w1.1 ++ a.1 ++ w2.1 ++ ['\n'], r4)]
        | _ => []

/-- Candidates of the starred group `((?:^\s*(?:doc|@ann)\s*\n)*)`
(capture group 1), greedy star priority: more iterations first, the
empty iteration last.  Every iteration ends with a consumed `\n`, so a
fuel of the text length is enough for the recursion. -/
def starAnnLines : Nat → List Char → List (List Char × List Char)
  | 0, t => [([], t)]
  | fuel + 1, t =>
      ((oneAnnLine t).flatMap fun c1 =>
        (starAnnLines fuel c1.2).map fun c2 => (c1.1 ++ c2.1, c2.2))
        ++ [([], t)]

/-- Group 1 candidates: at a line start the starred group applies; at
any other position its leading `^` fails, so only the empty capture is
possible. -/
def g1Cands (atStart : Bool) (t : List Char) : List (List Char × List Char) :=
  if atStart then starAnnLines t.length t else [([], t)]

/-- Candidates of the optional inline-annotation group
`(@\w+(?:\([^)]*\))?\s+)?` (capture group 2, trailing whitespace
included in the capture), present-first priority; the empty capture
stands for the skipped group (the Rust code reads a missing group as
`""`). -/
def g2Cands (t : List Char) : List (List Char × List Char) :=
  ((annTokenCands t).flatMap fun a =>
    (runSplits isSpaceChar 1 a.2).map fun w => (a.1 ++ w.1, w.2))
    ++ [([], t)]

/-- Candidates of the type token `\w+(?:<[\w\s,]+>)?`: greedy word run,
then the optional single-level generic bracket, present first. -/
def bracketPart (t : List Char) : List (List Char × List Char) :=
  match t with
  | '<' :: u =>
      (runSplits isGenericChar 1 u).filterMap fun ar =>
        match ar.2 with
        | '>' :: r2 => some ('<' :: ar.1 ++ ['>'], r2)
        | _ => none
  | _ => []

/-- Type-token candidates in priority order. -/
def typeCands (t : List Char) : List (List Char × List Char) :=
  (runSplits isWordChar 1 t).flatMap fun wr =>
    (bracketPart wr.2 ++ [([], wr.2)]).map fun (br : List Char × List Char) =>
      (wr.1 ++ br.1, br.2)

/-- Captures of one `field_with_line_regex` match: group 1 (preceding
annotation/doc-comment lines), group 2 (inline annotation, `""` when the
optional group did not participate), group 3 (type token), group 4
(field name). -/
structure FieldCap where
  g1 : List Char
  g2 : List Char
  ftype : List Char
  fname : List Char
deriving DecidableEq, Repr

/-- Captures of one `method_regex` match: groups 1 and 2 as for fields,
group 3 presence (`static`), group 4 (return type), group 5 (method
name), group 6 (raw parameter text). -/
structure MethodCap where
  g1 : List Char
  g2 : List Char
  isStatic : Bool
  rtype : List Char
  mname : List Char
  params : List Char
deriving DecidableEq, Repr

/-- All parses of `field_with_line_regex` starting exactly at the
current position, in backtracking priority order, paired with the rest
of the text after the match.  The stages mirror the pattern
`G1 \s* G2? public \s+ (TYPE) \s+ (\w+) \s* ;` in sequence; `flatMap`
nesting makes later stages backtrack before earlier ones, as the regex
engine does. -/
def fieldCandidates (atStart : Bool) (t : List Char) : List (FieldCap × List Char) :=
  (g1Cands atStart t).flatMap fun g1 =>
    (runSplits isSpaceChar 0 g1.2).flatMap fun s1 =>
      (g2Cands s1.2).flatMap fun g2 =>
        (dropLit ("public".toList) g2.2).toList.flatMap fun r4 =>
          (runSplits isSpaceChar 1 r4).flatMap fun s2 =>
            (typeCands s2.2).flatMap fun ty =>
              (runSplits isSpaceChar 1 ty.2).flatMap fun s3 =>
                (runSplits isWordChar 1 s3.2).flatMap fun nm =>
                  (runSplits isSpaceChar 0 nm.2).flatMap fun s4 =>
                    match s4.2 with
                    | ';' :: r10 =>
                        [({ g1 := g1.1, g2 := g2.1, ftype := ty.1, fname := nm.1 }, r10)]
                    | _ => []

/-- Leftmost-first match of `field_with_line_regex` at one position. -/
def matchFieldAt (atStart : Bool) (t : List Char) : Option (FieldCap × List Char) :=
  (fieldCandidates atStart t).head?

/-- Candidates of the optional `(static\s+)?` group, present first;
the `Bool` is `cap.get(3).is_some()`. -/
def staticCands (t : List Char) : List (Bool × List Char) :=
  ((dropLit ("static".toList) t).toList.flatMap fun r =>
    (runSplits isSpaceChar 1 r).map fun w => (true, w.2))
    ++ [(false, t)]

/-- All parses of `method_regex` starting exactly at the current
position, in backtracking priority order, mirroring
`G1 \s* G2? public \s+ (static\s+)? (TYPE) \s+ (\w+) \s* \( ([^)]*) \)`. -/
def methodCandidates (atStart : Bool) (t : List Char) : List (MethodCap × List Char) :=
  (g1Cands atStart t).flatMap fun g1 =>
    (runSplits isSpaceChar 0 g1.2).flatMap fun s1 =>
      (g2Cands s1.2).flatMap fun g2 =>
        (dropLit ("public".toList) g2.2).toList.flatMap fun r4 =>
          (runSplits isSpaceChar 1 r4).flatMap fun s2 =>
            (staticCands s2.2).flatMap fun st =>
              (typeCands st.2).flatMap fun ty =>
                (runSplits isSpaceChar 1 ty.2).flatMap fun s3 =>
                  (runSplits isWordChar 1 s3.2).flatMap fun nm =>
                    (runSplits isSpaceChar 0 nm.2).flatMap fun s4 =>
                      match s4.2 with
                      | '(' :: r10 =>
                          (runSplits (fun c => !(c == ')')) 0 r10).flatMap fun ps =>
                            match ps.2 with
                            | ')' :: r12 =>
                                [({ g1 := g1.1, g2 := g2.1, isStatic := st.1,
                                    rtype := ty.1, mname := nm.1, params := ps.1 }, r12)]
                            | _ => []
                      | _ => []

/-- Leftmost-first match of `method_regex` at one position. -/
def matchMethodAt (atStart : Bool) (t : List Char) : Option (MethodCap × List Char) :=
  (methodCandidates atStart t).head?

/-- Generic driver for `Regex::captures_iter`: scan start positions left
to right; on a match, emit `(start position, captures)` and resume right
after the match (bumping by one character on an empty match, as the
regex crate does); on failure, advance one character.  `atStart` tracks
whether the position is a line start for the `^` anchor.  Every step
shrinks the text by at least one character, so fuel `t.length + 1`
never runs out. -/
def scanAux {α : Type} (m : Bool → List Char → Option (α × List Char)) :
    Nat → Bool → Nat → List Char → List (Nat × α)
  | 0, _, _, _ => []
  | fuel + 1, atStart, pos, t =>
      match m atStart t with
      | some (cap, r) =>
          let consumed := t.length - r.length
          if consumed == 0 then
            match t with
            | [] => [(pos, cap)]
            | c :: rest => (pos, cap) :: scanAux m fuel (c == '\n') (pos + 1) rest
          else
            let atStart2 :=
              match (t.take consumed).getLast? with
              | some c => c == '\n'
              | none => atStart
            (pos, cap) :: scanAux m fuel atStart2 (pos + consumed) r
      | none =>
          match t with
          | [] => []
          | c :: rest => scanAux m fuel (c == '\n') (pos + 1) rest

/-- `field_with_line_regex.captures_iter(content)` with match start
positions. -/
def fieldCapsPos (t : List Char) : List (Nat × FieldCap) :=
  scanAux matchFieldAt (t.length + 1) true 0 t

/-- `method_regex.captures_iter(content)` with match start positions. -/
def methodCapsPos (t : List Char) : List (Nat × MethodCap) :=
  scanAux matchMethodAt (t.length + 1) true 0 t

/-- The per-field exposure test of `parse_file`: `@AuraEnabled` detected
in the preceding-lines capture or in the inline capture. -/
def fieldAura (c : FieldCap) : Bool :=
  auraIsMatch c.g1 || auraIsMatch c.g2

/-- The per-method exposure test of `parse_file`. -/
def methodAura (c : MethodCap) : Bool :=
  auraIsMatch c.g1 || auraIsMatch c.g2

/-- Record built from a field capture (`is_optional` is always false). -/
def fieldOfCap (c : FieldCap) : ApexField :=
  { name := c.fname, field_type := c.ftype, is_optional := false }

/-- Record built from a method capture. -/
def methodOfCap (c : MethodCap) : ApexMethod :=
  { name := c.mname, return_type := c.rtype,
    parameters := parse_parameters c.params, is_static := c.isStatic }

/-- The field loop of `parse_file`: keep annotated captures in match
order, drop the rest (with a logged warning, not modelled). -/
def extractFields (t : List Char) : List ApexField :=
  (fieldCapsPos t).filterMap fun pc =>
    if fieldAura pc.2 then some (fieldOfCap pc.2) else none

/-- The method loop of `parse_file`. -/
def extractMethods (t : List Char) : List ApexMethod :=
  (methodCapsPos t).filterMap fun pc =>
    if methodAura pc.2 then some (methodOfCap pc.2) else none

/-- `ApexParser::parse_file`: gate on the `@tsexport` marker regex
(`Ok(None)` when absent), then require a class-name capture (the
`context` error message models the `MissingClassDeclaration` failure),
then collect annotated fields and methods. -/
def parse_file (content : List Char) : Except String (Option ApexClass) :=
  if markerGateIsMatch content = false then Except.ok none
  else
    match classCapture content with
    | none => Except.error "Failed to find class name"
    | some className =>
        Except.ok (some { name := className, fields := extractFields content,
                          methods := extractMethods content })

deriving instance DecidableEq for Except

/- ----------------------------------------------------------------- -/
/- Spec-side definitions (for refinement comparison)                  -/
/- ----------------------------------------------------------------- -/

/-- Modelled from the spec's words, for comparison with the code's
`markerGateIsMatch`: a text "contains a block comment that includes
[the] marker token anywhere inside it" when some occurrence of the
doc-comment opener `/**` is followed by a closer `*/`, and the token
`@tsexport` occurs between that opener and the first such closer (the
delimited span of one comment).  Considering every opener, not only the
ones a sequential comment scanner would accept, makes this the most
generous reading of the spec. -/
def specContainsMarkerComment (t : List Char) : Bool :=
  (splitsAfter docOpenTok t).any fun o =>
    match (splitsAfter docCloseTok o.2).head? with
    | some b => hasSub tsexportTok (b.1.take (b.1.length - 2))
    | none => false

/-- Anchored full match of the member type-token pattern
`\w+(?:<[\w\s,]+>)?`: a non-empty word run, optionally followed by one
bracketed non-empty run of word characters, whitespace and commas.  A
token with nested generics (a second `<` inside the bracket) never
satisfies this. -/
def typeTokenOk (t : List Char) : Bool :=
  if (t.takeWhile isWordChar).isEmpty then false
  else if (t.drop (t.takeWhile isWordChar).length).isEmpty then true
  else if (t.drop (t.takeWhile isWordChar).length).head? == some '<' then
    if (((t.drop (t.takeWhile isWordChar).length).tail).takeWhile isGenericChar).isEmpty then
      false
    else
      ((t.drop (t.takeWhile isWordChar).length).tail).drop
          (((t.drop (t.takeWhile isWordChar).length).tail).takeWhile isGenericChar).length
        == ['>']
  else false

/- ----------------------------------------------------------------- -/
/- Concrete example texts used by witnesses and counterexamples       -/
/- ----------------------------------------------------------------- -/

/-- Marked class with one annotated and one bare field, one annotated
and one bare method. -/
def exMembers : List Char :=
  ("/**@tsexport*/\npublic class A\n@AuraEnabled public Integer a;\npublic Integer b;\n"
    ++ "@AuraEnabled public static List<String> getNames(Integer lim);\npublic void skipMe(Integer x);\n").toList

/-- The `ApexClass` that `parse_file` extracts from `exMembers`. -/
def exMembersClass : ApexClass :=
  { name := "A".toList,
    fields := [{ name := "a".toList, field_type := "Integer".toList, is_optional := false }],
    methods := [{ name := "getNames".toList, return_type := "List<String>".toList,
                  parameters := [{ name := "lim".toList, param_type := "Integer".toList }],
                  is_static := true }] }

/-- A text with no marker at all. -/
def exNoMarker : List Char := "public class Foo\n".toList

/-- Marker present, no class declaration. -/
def exMarkerOnly : List Char := "/**@tsexport*/".toList

/-- Marker and two class declarations. -/
def exTwoClasses : List Char :=
  "/**@tsexport*/\npublic class First\npublic class Second\n".toList

/-- The literals `/**`, `@tsexport`, `*/` occur in order, but the only
block comment of the text (`/** */`) does not contain the marker token:
the trailing `*/` is bare text.  No class declaration follows. -/
def exFakeMarker : List Char := "/** */ @tsexport */".toList

/-- Same fake-marker shape, followed by a class declaration. -/
def exFakeMarkerClass : List Char :=
  "/** x */ @tsexport */\npublic class Foo\n".toList

/-- Marked class whose only member lacks the exposure annotation. -/
def exNoAura : List Char :=
  "/**@tsexport*/\npublic class A\npublic Integer b;\n".toList

/-- Marked class with an annotated field of a doubly nested generic
type: the member patterns cannot match it. -/
def exNestedGeneric : List Char :=
  "/**@tsexport*/\npublic class A\n@AuraEnabled public Map<String, List<Integer>> data;\n".toList

/-- Same declaration with a single-level generic type, which the field
pattern does accept. -/
def exSingleGeneric : List Char :=
  "/**@tsexport*/\npublic class A\n@AuraEnabled public List<Integer> data;\n".toList

set_option maxRecDepth 8000

/- ----------------------------------------------------------------- -/
/- Helper lemmas on the parameter pipeline                            -/
/- ----------------------------------------------------------------- -/

theorem mem_splitOnComma_subset {seg t : List Char} (h : seg ∈ splitOnComma t) :
    ∀ c ∈ seg, c ∈ t := by
  induction t generalizing seg with
  | nil =>
      simp only [splitOnComma, List.mem_singleton] at h
      subst h
      intro c hc
      exact absurd hc (List.not_mem_nil c)
  | cons a rest ih =>
      simp only [splitOnComma] at h
      by_cases ha : a == ','
      · rw [if_pos ha] at h
        rcases List.mem_cons.mp h with h1 | h1
        · subst h1
          intro c hc
          exact absurd hc (List.not_mem_nil c)
        · intro c hc
          exact List.mem_cons_of_mem _ (ih h1 c hc)
      · rw [if_neg ha] at h
        cases hsplit : splitOnComma rest with
        | nil =>
            rw [hsplit] at h
            simp only [List.mem_singleton] at h
            subst h
            intro c hc
            rcases List.mem_singleton.mp hc with rfl
            exact List.mem_cons_self _ _
        | cons s ss =>
            rw [hsplit] at h
            rcases List.mem_cons.mp h with h1 | h1
            · subst h1
              intro c hc
              rcases List.mem_cons.mp hc with rfl | hc
              · exact List.mem_cons_self _ _
              · have hs : s ∈ splitOnComma rest := by rw [hsplit]; exact List.mem_cons_self _ _
                exact List.mem_cons_of_mem _ (ih hs c hc)
            · have hss : seg ∈ splitOnComma rest := by
                rw [hsplit]; exact List.mem_cons_of_mem _ h1
              intro c hc
              exact List.mem_cons_of_mem _ (ih hss c hc)

theorem all_space_of_trimChars_nil {t : List Char} (h : trimChars t = []) :
    ∀ c ∈ t, isSpaceChar c := by
  unfold trimChars at h
  rw [List.reverse_eq_nil_iff, List.dropWhile_eq_nil_iff] at h
  have hdrop : ∀ c ∈ t.dropWhile isSpaceChar, isSpaceChar c := by
    intro c hc
    exact h c (List.mem_reverse.mpr hc)
  intro c hc
  rw [← List.takeWhile_append_dropWhile isSpaceChar t] at hc
  rcases List.mem_append.mp hc with h1 | h1
  · exact List.mem_takeWhile_imp h1
  · exact hdrop c h1

theorem trimChars_nil_of_all_space {t : List Char} (h : ∀ c ∈ t, isSpaceChar c) :
    trimChars t = [] := by
  unfold trimChars
  rw [List.dropWhile_eq_nil_iff.mpr h]
  simp

/-- The early all-blank return of `parse_parameters` is redundant: for
every raw text the result is the comma-split / trim / whitespace-split
pipeline with segments of fewer than two tokens dropped. -/
theorem parse_parameters_eq (raw : List Char) :
    parse_parameters raw = (splitOnComma raw).filterMap (fun param =>
      match splitWs (trimChars param) with
      | ty :: nm :: _ => some { name := nm, param_type := ty }
      | _ => none) := by
  unfold parse_parameters
  cases h : (trimChars raw).isEmpty with
  | true =>
      simp only [if_pos]
      symm
      rw [List.filterMap_eq_nil_iff]
      intro seg hseg
      have hall : ∀ c ∈ raw, isSpaceChar c :=
        all_space_of_trimChars_nil (List.isEmpty_iff.mp h)
      have hseg' : trimChars seg = [] :=
        trimChars_nil_of_all_space (fun c hc => hall c (mem_splitOnComma_subset hseg c hc))
      rw [hseg']
      rfl
  | false =>
      simp [h]

/- ----------------------------------------------------------------- -/
/- C6                                                                 -/
/- ----------------------------------------------------------------- -/

/-- C6 counterexample: the segment `Integer a b` splits into three
whitespace tokens — it does not resolve to exactly a (type, name) pair —
yet `parse_parameters` does not drop it: it produces the record
`(Integer, a)` from the first two tokens. -/
theorem c6_three_token_counterexample :
    splitWs (trimChars ("Integer a b".toList)) =
      ["Integer".toList, "a".toList, "b".toList] ∧
    parse_parameters ("Integer a b".toList) =
      [{ name := "a".toList, param_type := "Integer".toList }] := by
  decide

/-- C6 amended: a comma-separated segment yields a parameter record iff
its trimmed whitespace-split form has AT LEAST two tokens; the first two
become the type and the name (any further tokens are ignored), and only
segments with fewer than two tokens are silently dropped. -/
theorem c6_param_record_iff (raw : List Char) (p : ApexParameter) :
    p ∈ parse_parameters raw ↔
      ∃ seg ∈ splitOnComma raw, ∃ ty nm rest,
        splitWs (trimChars seg) = ty :: nm :: rest ∧
        p = { name := nm, param_type := ty } := by
  rw [parse_parameters_eq, List.mem_filterMap]
  constructor
  · rintro ⟨seg, hseg, hf⟩
    refine ⟨seg, hseg, ?_⟩
    cases hsp : splitWs (trimChars seg) with
    | nil => rw [hsp] at hf; exact absurd hf (by simp)
    | cons ty tl =>
        cases tl with
        | nil => rw [hsp] at hf; exact absurd hf (by simp)
        | cons nm rest =>
            rw [hsp] at hf
            simp only [Option.some.injEq] at hf
            exact ⟨ty, nm, rest, rfl, hf.symm⟩
  · rintro ⟨seg, hseg, ty, nm, rest, hsp, hp⟩
    refine ⟨seg, hseg, ?_⟩
    rw [hsp, hp]

/- ----------------------------------------------------------------- -/
/- C7                                                                 -/
/- ----------------------------------------------------------------- -/

/-- C7: parameter parsing splits on commas, trims each segment, splits
it on whitespace and drops (without error) every segment that yields
fewer than two tokens; an entirely blank text yields `[]`, and
`Integer a, b` yields only the parameter `(Integer, a)` — the `b`
segment is dropped. -/
theorem c7_parameter_pipeline :
    (∀ raw, parse_parameters raw = (splitOnComma raw).filterMap (fun param =>
        match splitWs (trimChars param) with
        | ty :: nm :: _ => some { name := nm, param_type := ty }
        | _ => none)) ∧
    parse_parameters ("   ".toList) = [] ∧
    parse_parameters ("Integer a, b".toList) =
      [{ name := "a".toList, param_type := "Integer".toList }] :=
  ⟨parse_parameters_eq, by decide, by decide⟩

/- ----------------------------------------------------------------- -/
/- Characterisation of the substring machinery                        -/
/- ----------------------------------------------------------------- -/

theorem leadsWith_iff {p t : List Char} : leadsWith p t = true ↔ ∃ r, t = p ++ r := by
  induction p generalizing t with
  | nil => simp [leadsWith]
  | cons a as ih =>
      cases t with
      | nil => simp [leadsWith]
      | cons b bs =>
          simp only [leadsWith, Bool.and_eq_true, beq_iff_eq, List.cons_append,
            List.cons.injEq]
          constructor
          · rintro ⟨rfl, h⟩
            obtain ⟨r, rfl⟩ := ih.mp h
            exact ⟨r, rfl, rfl⟩
          · rintro ⟨r, rfl, rfl⟩
            exact ⟨rfl, ih.mpr ⟨r, rfl⟩⟩

theorem splitsAfter_sound {p x r t : List Char} (h : (x, r) ∈ splitsAfter p t) :
    ∃ a, x = a ++ p ∧ t = a ++ p ++ r := by
  induction t generalizing x r with
  | nil =>
      simp only [splitsAfter] at h
      by_cases hp : p.isEmpty
      · rw [if_pos hp] at h
        simp only [List.mem_singleton, Prod.mk.injEq] at h
        obtain ⟨rfl, rfl⟩ := h
        exact ⟨[], by simp [List.isEmpty_iff.mp hp]⟩
      · rw [if_neg hp] at h
        exact absurd h (List.not_mem_nil _)
  | cons c rest ih =>
      simp only [splitsAfter] at h
      rcases List.mem_append.mp h with h1 | h1
      · by_cases hl : leadsWith p (c :: rest)
        · rw [if_pos hl] at h1
          simp only [List.mem_singleton, Prod.mk.injEq] at h1
          obtain ⟨rfl, rfl⟩ := h1
          obtain ⟨r', hr'⟩ := leadsWith_iff.mp hl
          refine ⟨[], by simp, ?_⟩
          rw [hr', List.drop_left]
          simp [hr']
        · rw [if_neg hl] at h1
          exact absurd h1 (List.not_mem_nil _)
      · obtain ⟨⟨a', r'⟩, hmem, heq⟩ := List.mem_map.mp h1
        simp only [Prod.mk.injEq] at heq
        obtain ⟨rfl, rfl⟩ := heq
        obtain ⟨a, rfl, hrest⟩ := ih hmem
        exact ⟨c :: a, rfl, by rw [List.cons_append, List.cons_append, ← hrest]⟩

theorem splitsAfter_complete (p a r : List Char) :
    (a ++ p, r) ∈ splitsAfter p (a ++ p ++ r) := by
  induction a with
  | nil =>
      simp only [List.nil_append]
      cases hpr : p ++ r with
      | nil =>
          obtain ⟨rfl, rfl⟩ := List.append_eq_nil.mp hpr
          simp [splitsAfter]
      | cons c rest =>
          simp only [splitsAfter]
          apply List.mem_append_left
          have hl : leadsWith p (c :: rest) = true := leadsWith_iff.mpr ⟨r, hpr.symm⟩
          rw [if_pos hl]
          have : (c :: rest).drop p.length = r := by
            rw [← hpr, List.drop_left]
          simp [this]
  | cons c a' ih =>
      simp only [List.cons_append, splitsAfter]
      apply List.mem_append_right
      exact List.mem_map.mpr ⟨(a' ++ p, r), ih, rfl⟩

theorem hasSub_iff {p t : List Char} : hasSub p t = true ↔ ∃ a r, t = a ++ p ++ r := by
  unfold hasSub
  constructor
  · intro h
    have hne : splitsAfter p t ≠ [] := by
      intro hnil
      rw [hnil] at h
      simp at h
    obtain ⟨⟨x, r⟩, hx⟩ := List.exists_mem_of_ne_nil _ hne
    obtain ⟨a, _, hd⟩ := splitsAfter_sound hx
    exact ⟨a, r, hd⟩
  · rintro ⟨a, r, rfl⟩
    have hne := List.ne_nil_of_mem (splitsAfter_complete p a r)
    simp only [Bool.not_eq_true']
    cases h' : splitsAfter p (a ++ p ++ r) with
    | nil => exact absurd h' hne
    | cons x xs => rfl

/-- The marker gate passes iff the text decomposes around the three
literals `/**`, `@tsexport`, `*/` in this order — regardless of whether
the closing `*/` belongs to the comment opened by `/**`. -/
theorem markerGateIsMatch_iff {t : List Char} :
    markerGateIsMatch t = true ↔
      ∃ a b c d, t = a ++ docOpenTok ++ b ++ tsexportTok ++ c ++ docCloseTok ++ d := by
  unfold markerGateIsMatch
  rw [List.any_eq_true]
  constructor
  · rintro ⟨⟨x1, r1⟩, hx1, h1⟩
    rw [List.any_eq_true] at h1
    obtain ⟨⟨x2, r2⟩, hx2, h2⟩ := h1
    obtain ⟨a, _, hta⟩ := splitsAfter_sound hx1
    obtain ⟨b, _, htb⟩ := splitsAfter_sound hx2
    obtain ⟨c, d, hcd⟩ := hasSub_iff.mp h2
    refine ⟨a, b, c, d, ?_⟩
    simp only at hta htb hcd
    rw [hta, htb, hcd]
    simp [List.append_assoc]
  · rintro ⟨a, b, c, d, rfl⟩
    refine ⟨(a ++ docOpenTok, b ++ tsexportTok ++ (c ++ docCloseTok ++ d)), ?_, ?_⟩
    · have := splitsAfter_complete docOpenTok a (b ++ tsexportTok ++ (c ++ docCloseTok ++ d))
      simpa [List.append_assoc] using this
    · rw [List.any_eq_true]
      refine ⟨(b ++ tsexportTok, c ++ docCloseTok ++ d), ?_, ?_⟩
      · have := splitsAfter_complete tsexportTok b (c ++ docCloseTok ++ d)
        simpa [List.append_assoc] using this
      · exact hasSub_iff.mpr ⟨c, d, rfl⟩

/- ----------------------------------------------------------------- -/
/- Structural facts about `parse_file`                                -/
/- ----------------------------------------------------------------- -/

theorem parse_file_gate_false {t : List Char} (h : markerGateIsMatch t = false) :
    parse_file t = Except.ok none := by
  simp [parse_file, h]

theorem parse_file_ok_none_iff (t : List Char) :
    parse_file t = Except.ok none ↔ markerGateIsMatch t = false := by
  cases hm : markerGateIsMatch t with
  | false => simp [parse_file_gate_false hm]
  | true =>
      simp only [parse_file, hm]
      cases hc : classCapture t with
      | none => simp
      | some nm => simp

theorem parse_file_ok_some_inv {t : List Char} {cls : ApexClass}
    (h : parse_file t = Except.ok (some cls)) :
    markerGateIsMatch t = true ∧ classCapture t = some cls.name ∧
    cls.fields = extractFields t ∧ cls.methods = extractMethods t := by
  unfold parse_file at h
  cases hm : markerGateIsMatch t with
  | false => rw [hm] at h; simp at h
  | true =>
      rw [hm] at h
      simp only [Bool.true_eq_false, if_false] at h
      cases hc : classCapture t with
      | none => rw [hc] at h; simp at h
      | some nm =>
          rw [hc] at h
          simp only [Except.ok.injEq, Option.some.injEq] at h
          subst h
          exact ⟨rfl, rfl, rfl, rfl⟩

/- ----------------------------------------------------------------- -/
/- C2                                                                 -/
/- ----------------------------------------------------------------- -/

/-- C2 counterexample: `exFakeMarker` contains no doc-style block
comment whose span includes `@tsexport` (its only comment is `/** */`),
yet `parse_file` does not return `Ok(None)` — the gate regex fires on
the in-order substrings and the run then fails on the missing class
declaration. -/
theorem c2_spec_marker_counterexample :
    specContainsMarkerComment exFakeMarker = false ∧
    parse_file exFakeMarker = Except.error "Failed to find class name" := by
  decide

/-- C2 amended: for every source text in which the literals `/**`,
`@tsexport`, `*/` do not occur in this order (the condition the gate
regex actually tests, rather than marker-inside-one-comment),
`parse_file` returns `Ok(None)` and never an error. -/
theorem c2_no_marker_ok_none (t : List Char)
    (h : ¬ ∃ a b c d, t = a ++ docOpenTok ++ b ++ tsexportTok ++ c ++ docCloseTok ++ d) :
    parse_file t = Except.ok none := by
  apply parse_file_gate_false
  cases hm : markerGateIsMatch t with
  | false => rfl
  | true => exact absurd (markerGateIsMatch_iff.mp hm) h

/-- C2 witness: the amended theorem applied to a concrete markerless
text. -/
theorem c2_no_marker_ok_none_witness :
    (¬ ∃ a b c d, exNoMarker = a ++ docOpenTok ++ b ++ tsexportTok ++ c ++ docCloseTok ++ d) ∧
    parse_file exNoMarker = Except.ok none := by
  have hgate : markerGateIsMatch exNoMarker = false := by decide
  have hno : ¬ ∃ a b c d,
      exNoMarker = a ++ docOpenTok ++ b ++ tsexportTok ++ c ++ docCloseTok ++ d := by
    intro hex
    rw [← markerGateIsMatch_iff] at hex
    rw [hgate] at hex
    exact Bool.false_ne_true hex
  exact ⟨hno, c2_no_marker_ok_none exNoMarker hno⟩

/- ----------------------------------------------------------------- -/
/- C3                                                                 -/
/- ----------------------------------------------------------------- -/

/-- C3: whenever the marker gate fires but `class_regex` captures no
class name, `parse_file` returns the error of the
`context("Failed to find class name")` call — the spec's
`MissingClassDeclaration` condition — not `Ok(None)` and not a record. -/
theorem c3_marker_without_class_errors (t : List Char)
    (h1 : markerGateIsMatch t = true) (h2 : classCapture t = none) :
    parse_file t = Except.error "Failed to find class name" := by
  simp [parse_file, h1, h2]

/-- C3 witness: a text that is only the marker comment. -/
theorem c3_marker_without_class_errors_witness :
    markerGateIsMatch exMarkerOnly = true ∧ classCapture exMarkerOnly = none ∧
    parse_file exMarkerOnly = Except.error "Failed to find class name" :=
  ⟨by decide, by decide, c3_marker_without_class_errors exMarkerOnly (by decide) (by decide)⟩

/- ----------------------------------------------------------------- -/
/- C5                                                                 -/
/- ----------------------------------------------------------------- -/

/-- C5 counterexample: in `exFakeMarkerClass` the token `@tsexport`
lies inside no block comment (the only comment is `/** x */`, and the
second `*/` is bare text), yet the extractor treats the text as in
scope: it proceeds past the gate and returns a class record instead of
`Ok(None)`. -/
theorem c5_scope_counterexample :
    specContainsMarkerComment exFakeMarkerClass = false ∧
    parse_file exFakeMarkerClass =
      Except.ok (some (ApexClass.mk ("Foo".toList) [] [])) := by
  decide

/-- C5 amended: the text is out of scope (`parse_file` returns
`Ok(None)`) exactly when the literals `/**`, `@tsexport`, `*/` do NOT
occur in order in the text; the closing `*/` need not belong to the
comment opened by `/**`, so the marker token need not lie inside any
single block comment. -/
theorem c5_scope_iff_inorder_pattern (t : List Char) :
    parse_file t = Except.ok none ↔
      ¬ ∃ a b c d, t = a ++ docOpenTok ++ b ++ tsexportTok ++ c ++ docCloseTok ++ d := by
  rw [parse_file_ok_none_iff, ← markerGateIsMatch_iff]
  cases markerGateIsMatch t with
  | false => simp
  | true => simp

/- ----------------------------------------------------------------- -/
/- C4                                                                 -/
/- ----------------------------------------------------------------- -/

theorem classScanAux_pos_le {b : Bool} {pos : Nat} {t : List Char} :
    ∀ x ∈ classScanAux b pos t, pos ≤ x.1 := by
  induction t generalizing b pos with
  | nil => intro x hx; exact absurd hx (List.not_mem_nil x)
  | cons c rest ih =>
      intro x hx
      simp only [classScanAux] at hx
      rcases List.mem_append.mp hx with h1 | h1
      · by_cases hb : b
        · rw [if_pos hb] at h1
          rcases List.mem_map.mp h1 with ⟨cap, _, rfl⟩
          exact Nat.le_refl _
        · rw [if_neg hb] at h1
          exact absurd h1 (List.not_mem_nil x)
      · exact Nat.le_of_succ_le (ih x h1)


theorem classScanAux_head_min {b : Bool} {pos : Nat} {t : List Char} {hd : Nat × List Char}
    (hh : (classScanAux b pos t).head? = some hd) :
    ∀ x ∈ classScanAux b pos t, hd.1 ≤ x.1 := by
  induction t generalizing b pos with
  | nil => simp [classScanAux] at hh
  | cons c rest ih =>
      intro x hx
      simp only [classScanAux] at hh hx
      by_cases hb : b
      · rw [if_pos hb] at hh hx
        cases hm : matchClassAt (c :: rest) with
        | none =>
            rw [hm] at hh hx
            simp only [Option.toList_none, List.map_nil, List.nil_append] at hh hx
            exact ih hh x hx
        | some cap =>
            rw [hm] at hh hx
            simp only [Option.toList_some, List.map_cons, List.map_nil,
              List.cons_append, List.nil_append, List.head?_cons,
              Option.some.injEq] at hh
            subst hh
            rcases List.mem_cons.mp hx with rfl | hx1
            · exact Nat.le_refl _
            · exact Nat.le_of_succ_le (classScanAux_pos_le x hx1)
      · rw [if_neg hb] at hh hx
        simp only [List.nil_append] at hh hx
        exact ih hh x hx

/-- C4: when `parse_file` returns a record, its `name` is the identifier
captured at a `class_regex` match position that is minimal among all
match positions of the text — the first occurrence wins over all later
ones. -/
theorem c4_first_class_occurrence_wins (t : List Char) (cls : ApexClass)
    (h : parse_file t = Except.ok (some cls)) :
    ∃ p, (p, cls.name) ∈ classMatchPositions t ∧
      ∀ x ∈ classMatchPositions t, p ≤ x.1 := by
  obtain ⟨-, hcap, -, -⟩ := parse_file_ok_some_inv h
  unfold classCapture at hcap
  cases hh : (classMatchPositions t).head? with
  | none => rw [hh] at hcap; exact absurd hcap (by simp)
  | some hd =>
      obtain ⟨p, q⟩ := hd
      rw [hh] at hcap
      simp only [Option.map_some', Option.some.injEq] at hcap
      subst hcap
      exact ⟨p, List.mem_of_mem_head? (by simp [hh]), classScanAux_head_min hh⟩

/-- C4 witness: with two class declarations, the extracted name is the
first one, at the smallest match position. -/
theorem c4_first_class_occurrence_wins_witness :
    parse_file exTwoClasses =
      Except.ok (some (ApexClass.mk ("First".toList) [] [])) ∧
    ∃ p, (p, ("First".toList : List Char)) ∈ classMatchPositions exTwoClasses ∧
      ∀ x ∈ classMatchPositions exTwoClasses, p ≤ x.1 :=
  ⟨by decide,
   c4_first_class_occurrence_wins exTwoClasses (ApexClass.mk ("First".toList) [] [])
     (by decide)⟩

/- ----------------------------------------------------------------- -/
/- C9                                                                 -/
/- ----------------------------------------------------------------- -/

/-- C9: with the marker present, a class name captured, and no member
capture passing the exposure filter, `parse_file` succeeds with a record
with the extracted name and empty fields and methods. -/
theorem c9_no_exposed_members_still_ok (t className : List Char)
    (h1 : markerGateIsMatch t = true) (h2 : classCapture t = some className)
    (h3 : ∀ pc ∈ fieldCapsPos t, fieldAura pc.2 = false)
    (h4 : ∀ pc ∈ methodCapsPos t, methodAura pc.2 = false) :
    parse_file t = Except.ok (some (ApexClass.mk className [] [])) := by
  have hf : extractFields t = [] := by
    unfold extractFields
    exact List.filterMap_eq_nil_iff.mpr (fun pc hpc => by simp [h3 pc hpc])
  have hm : extractMethods t = [] := by
    unfold extractMethods
    exact List.filterMap_eq_nil_iff.mpr (fun pc hpc => by simp [h4 pc hpc])
  simp [parse_file, h1, h2, hf, hm, ApexClass.mk.injEq]

/-- C9 witness: a marked class whose only field capture lacks
`@AuraEnabled`. -/
theorem c9_no_exposed_members_still_ok_witness :
    markerGateIsMatch exNoAura = true ∧
    classCapture exNoAura = some ("A".toList) ∧
    (∀ pc ∈ fieldCapsPos exNoAura, fieldAura pc.2 = false) ∧
    (∀ pc ∈ methodCapsPos exNoAura, methodAura pc.2 = false) ∧
    parse_file exNoAura = Except.ok (some (ApexClass.mk ("A".toList) [] [])) :=
  ⟨by decide, by decide, by decide, by decide,
   c9_no_exposed_members_still_ok exNoAura ("A".toList)
     (by decide) (by decide) (by decide) (by decide)⟩

/- ----------------------------------------------------------------- -/
/- C1                                                                 -/
/- ----------------------------------------------------------------- -/

/-- C1: a member record is in the extracted class exactly when some
capture of the corresponding member regex produced it with the
`@AuraEnabled` test succeeding on the preceding-lines capture (group 1)
or on the inline capture (group 2); captures failing both tests
contribute nothing. -/
theorem c1_member_iff_annotated (t : List Char) (cls : ApexClass)
    (h : parse_file t = Except.ok (some cls)) :
    (∀ f, f ∈ cls.fields ↔
      ∃ pc ∈ fieldCapsPos t, fieldAura pc.2 = true ∧ f = fieldOfCap pc.2) ∧
    (∀ m, m ∈ cls.methods ↔
      ∃ pc ∈ methodCapsPos t, methodAura pc.2 = true ∧ m = methodOfCap pc.2) := by
  obtain ⟨-, -, hf, hm⟩ := parse_file_ok_some_inv h
  constructor
  · intro f
    rw [hf]
    unfold extractFields
    rw [List.mem_filterMap]
    constructor
    · rintro ⟨pc, hpc, hfc⟩
      split at hfc
      next ha => exact ⟨pc, hpc, ha, (Option.some.inj hfc).symm⟩
      next => exact absurd hfc (by simp)
    · rintro ⟨pc, hpc, ha, rfl⟩
      exact ⟨pc, hpc, by rw [if_pos ha]⟩
  · intro m
    rw [hm]
    unfold extractMethods
    rw [List.mem_filterMap]
    constructor
    · rintro ⟨pc, hpc, hfc⟩
      split at hfc
      next ha => exact ⟨pc, hpc, ha, (Option.some.inj hfc).symm⟩
      next => exact absurd hfc (by simp)
    · rintro ⟨pc, hpc, ha, rfl⟩
      exact ⟨pc, hpc, by rw [if_pos ha]⟩

/-- C1 witness: in `exMembers`, the annotated field and method are in
the record and the unannotated ones are not. -/
theorem c1_member_iff_annotated_witness :
    ((ApexField.mk ("a".toList) ("Integer".toList) false) ∈ exMembersClass.fields) ∧
    ((ApexField.mk ("b".toList) ("Integer".toList) false) ∉ exMembersClass.fields) ∧
    ((ApexMethod.mk ("getNames".toList) ("List<String>".toList)
        [ApexParameter.mk ("lim".toList) ("Integer".toList)] true) ∈ exMembersClass.methods) ∧
    ((ApexMethod.mk ("skipMe".toList) ("void".toList)
        [ApexParameter.mk ("x".toList) ("Integer".toList)] false) ∉ exMembersClass.methods) := by
  have h := c1_member_iff_annotated exMembers exMembersClass (by decide)
  refine ⟨(h.1 _).mpr (by decide), ?_, (h.2 _).mpr (by decide), ?_⟩
  · intro hmem
    exact absurd ((h.1 _).mp hmem) (by decide)
  · intro hmem
    exact absurd ((h.2 _).mp hmem) (by decide)

/- ----------------------------------------------------------------- -/
/- C8                                                                 -/
/- ----------------------------------------------------------------- -/

theorem scanAux_pos_le {α : Type} (m : Bool → List Char → Option (α × List Char)) :
    ∀ (fuel : Nat) (b : Bool) (pos : Nat) (t : List Char),
      ∀ x ∈ scanAux m fuel b pos t, pos ≤ x.1 := by
  intro fuel
  induction fuel with
  | zero => intro b pos t x hx; simp [scanAux] at hx
  | succ n ih =>
      intro b pos t x hx
      simp only [scanAux] at hx
      cases hm : m b t with
      | none =>
          rw [hm] at hx
          cases t with
          | nil => simp at hx
          | cons c rest => exact Nat.le_of_succ_le (ih _ (pos + 1) rest x hx)
      | some capr =>
          obtain ⟨cap, r⟩ := capr
          rw [hm] at hx
          simp only at hx
          by_cases hc : (t.length - r.length == 0) = true
          · rw [if_pos hc] at hx
            cases t with
            | nil =>
                rcases List.mem_singleton.mp hx with rfl
                exact Nat.le_refl _
            | cons c rest =>
                rcases List.mem_cons.mp hx with rfl | hx1
                · exact Nat.le_refl _
                · exact Nat.le_of_succ_le (ih _ (pos + 1) rest x hx1)
          · rw [if_neg hc] at hx
            rcases List.mem_cons.mp hx with rfl | hx1
            · exact Nat.le_refl _
            · exact Nat.le_trans (Nat.le_add_right pos _) (ih _ _ r x hx1)

theorem scanAux_pairwise {α : Type} (m : Bool → List Char → Option (α × List Char)) :
    ∀ (fuel : Nat) (b : Bool) (pos : Nat) (t : List Char),
      List.Pairwise (fun x y => x.1 < y.1) (scanAux m fuel b pos t) := by
  intro fuel
  induction fuel with
  | zero => intro b pos t; simp [scanAux]
  | succ n ih =>
      intro b pos t
      simp only [scanAux]
      cases hm : m b t with
      | none =>
          cases t with
          | nil => simp
          | cons c rest => exact ih _ (pos + 1) rest
      | some capr =>
          obtain ⟨cap, r⟩ := capr
          simp only
          by_cases hc : (t.length - r.length == 0) = true
          · rw [if_pos hc]
            cases t with
            | nil => simp
            | cons c rest =>
                refine List.Pairwise.cons ?_ (ih _ (pos + 1) rest)
                intro y hy
                exact Nat.lt_of_succ_le (scanAux_pos_le m _ _ (pos + 1) rest y hy)
          · rw [if_neg hc]
            refine List.Pairwise.cons ?_ (ih _ _ r)
            intro y hy
            have h1 : pos + (t.length - r.length) ≤ y.1 :=
              scanAux_pos_le m _ _ _ r y hy
            have h2 : 1 ≤ t.length - r.length :=
              Nat.one_le_iff_ne_zero.mpr (by simpa using hc)
            exact Nat.lt_of_lt_of_le (Nat.lt_add_of_pos_right h2) h1

/-- C8: member captures are reported in strictly increasing order of
their match start positions, and the record's field and method lists are
the order-preserving filtered images of those capture lists — so record
order equals source-appearance order, with no reordering, sorting or
deduplication. -/
theorem c8_members_in_source_order (t : List Char) (cls : ApexClass)
    (h : parse_file t = Except.ok (some cls)) :
    List.Pairwise (fun x y => x.1 < y.1) (fieldCapsPos t) ∧
    List.Pairwise (fun x y => x.1 < y.1) (methodCapsPos t) ∧
    cls.fields = (fieldCapsPos t).filterMap
      (fun pc => if fieldAura pc.2 then some (fieldOfCap pc.2) else none) ∧
    cls.methods = (methodCapsPos t).filterMap
      (fun pc => if methodAura pc.2 then some (methodOfCap pc.2) else none) := by
  obtain ⟨-, -, hf, hm⟩ := parse_file_ok_some_inv h
  exact ⟨scanAux_pairwise matchFieldAt _ _ _ _,
         scanAux_pairwise matchMethodAt _ _ _ _, hf, hm⟩

/-- C8 witness: the ordering theorem applied to the concrete class text
`exMembers`. -/
theorem c8_members_in_source_order_witness :
    List.Pairwise (fun x y => x.1 < y.1) (fieldCapsPos exMembers) ∧
    List.Pairwise (fun x y => x.1 < y.1) (methodCapsPos exMembers) ∧
    exMembersClass.fields = (fieldCapsPos exMembers).filterMap
      (fun pc => if fieldAura pc.2 then some (fieldOfCap pc.2) else none) ∧
    exMembersClass.methods = (methodCapsPos exMembers).filterMap
      (fun pc => if methodAura pc.2 then some (methodOfCap pc.2) else none) :=
  c8_members_in_source_order exMembers exMembersClass (by decide)

/- ----------------------------------------------------------------- -/
/- C10                                                                -/
/- ----------------------------------------------------------------- -/

theorem takeWhile_append_of_all {p : Char → Bool} {l1 l2 : List Char}
    (h : ∀ c ∈ l1, p c = true) :
    (l1 ++ l2).takeWhile p = l1 ++ l2.takeWhile p := by
  induction l1 with
  | nil => simp
  | cons a l1' ih =>
      simp only [List.cons_append, List.takeWhile_cons,
        h a (List.mem_cons_self a l1'), ite_true]
      rw [ih (fun c hc => h c (List.mem_cons_of_mem a hc))]

theorem runSplits_mem {p : Char → Bool} {min : Nat} {a r t : List Char}
    (h : (a, r) ∈ runSplits p min t) :
    (∀ c ∈ a, p c = true) ∧ t = a ++ r ∧ min ≤ a.length := by
  unfold runSplits at h
  simp only [List.mem_filterMap, List.mem_reverse, List.mem_range] at h
  obtain ⟨k, hk, hif⟩ := h
  by_cases hmin : min ≤ k
  · rw [if_pos hmin] at hif
    simp only [Option.some.injEq, Prod.mk.injEq] at hif
    obtain ⟨rfl, rfl⟩ := hif
    have hkn : k ≤ (t.takeWhile p).length := Nat.lt_succ_iff.mp hk
    have hlen : (t.take k).length = k := by
      rw [List.length_take]
      exact Nat.min_eq_left (Nat.le_trans hkn (List.takeWhile_sublist p).length_le)
    refine ⟨?_, (List.take_append_drop k t).symm, by rw [hlen]; exact hmin⟩
    intro c hc
    have : t.take k = (t.takeWhile p ++ t.dropWhile p).take k := by
      rw [List.takeWhile_append_dropWhile]
    rw [this, List.take_append_of_le_length hkn] at hc
    exact List.mem_takeWhile_imp (List.take_subset k _ hc)
  · rw [if_neg hmin] at hif
    exact absurd hif (by simp)

theorem bracketPart_mem {b r2 t : List Char} (h : (b, r2) ∈ bracketPart t) :
    ∃ a, b = '<' :: (a ++ ['>']) ∧ a ≠ [] ∧ ∀ c ∈ a, isGenericChar c = true := by
  unfold bracketPart at h
  split at h
  next u =>
    simp only [List.mem_filterMap] at h
    obtain ⟨⟨a', r'⟩, hmem, hmatch⟩ := h
    obtain ⟨hall, -, hlen⟩ := runSplits_mem hmem
    split at hmatch
    next r'' =>
      simp only [Option.some.injEq, Prod.mk.injEq] at hmatch
      obtain ⟨rfl, rfl⟩ := hmatch
      refine ⟨a', rfl, ?_, hall⟩
      intro hnil
      rw [hnil] at hlen
      simp at hlen
    next => exact absurd hmatch (by simp)
  next => exact absurd h (List.not_mem_nil _)

theorem typeTokenOk_word {w : List Char} (hne : w ≠ [])
    (hall : ∀ c ∈ w, isWordChar c = true) : typeTokenOk w = true := by
  have h1 : w.takeWhile isWordChar = w := List.takeWhile_eq_self_iff.mpr hall
  have hwe : w.isEmpty = false := by
    cases w with
    | nil => exact absurd rfl hne
    | cons _ _ => rfl
  unfold typeTokenOk
  rw [h1, hwe, List.drop_length]
  rfl

theorem typeTokenOk_generic {w a : List Char} (hwne : w ≠ [])
    (hwall : ∀ c ∈ w, isWordChar c = true) (hane : a ≠ [])
    (haall : ∀ c ∈ a, isGenericChar c = true) :
    typeTokenOk (w ++ '<' :: (a ++ ['>'])) = true := by
  have h1 : (w ++ '<' :: (a ++ ['>'])).takeWhile isWordChar = w := by
    rw [takeWhile_append_of_all hwall]
    simp [List.takeWhile_cons, isWordChar]
  have hwe : w.isEmpty = false := by
    cases w with
    | nil => exact absurd rfl hwne
    | cons _ _ => rfl
  have h3 : (a ++ ['>']).takeWhile isGenericChar = a := by
    rw [takeWhile_append_of_all haall]
    simp [List.takeWhile_cons, isGenericChar, isWordChar, isSpaceChar]
  have hae : a.isEmpty = false := by
    cases a with
    | nil => exact absurd rfl hane
    | cons _ _ => rfl
  unfold typeTokenOk
  rw [h1, hwe, List.drop_left]
  simp only [List.isEmpty_cons, List.head?_cons, List.tail_cons, h3, hae,
    List.drop_left, Bool.false_eq_true, if_false]
  rfl

theorem typeCands_mem {ty r t : List Char} (h : (ty, r) ∈ typeCands t) :
    typeTokenOk ty = true := by
  unfold typeCands at h
  simp only [List.mem_flatMap, List.mem_map] at h
  obtain ⟨⟨w, rw1⟩, hw, ⟨b, rb⟩, hb, heq⟩ := h
  simp only [Prod.mk.injEq] at heq
  obtain ⟨rfl, rfl⟩ := heq
  obtain ⟨hwall, -, hwlen⟩ := runSplits_mem hw
  have hwne : w ≠ [] := by
    intro h0
    rw [h0] at hwlen
    simp at hwlen
  rcases List.mem_append.mp hb with hbr | hbe
  · obtain ⟨a, rfl, hane, haall⟩ := bracketPart_mem hbr
    exact typeTokenOk_generic hwne hwall hane haall
  · simp only [List.mem_singleton, Prod.mk.injEq] at hbe
    obtain ⟨rfl, rfl⟩ := hbe
    rw [List.append_nil]
    exact typeTokenOk_word hwne hwall

theorem fieldCandidates_ftype {b : Bool} {t : List Char} {cap : FieldCap} {r : List Char}
    (h : (cap, r) ∈ fieldCandidates b t) : typeTokenOk cap.ftype = true := by
  unfold fieldCandidates at h
  simp only [List.mem_flatMap] at h
  obtain ⟨g1, -, s1, -, g2, -, r4, -, s2, -, ty, hty, s3, -, nm, -, s4, -, hfin⟩ := h
  split at hfin
  · simp only [List.mem_singleton, Prod.mk.injEq] at hfin
    obtain ⟨rfl, rfl⟩ := hfin
    exact typeCands_mem hty
  · exact absurd hfin (List.not_mem_nil _)

theorem methodCandidates_rtype {b : Bool} {t : List Char} {cap : MethodCap} {r : List Char}
    (h : (cap, r) ∈ methodCandidates b t) : typeTokenOk cap.rtype = true := by
  unfold methodCandidates at h
  simp only [List.mem_flatMap] at h
  obtain ⟨g1, -, s1, -, g2, -, r4, -, s2, -, st, -, ty, hty, s3, -, nm, -, s4, -, hfin⟩ := h
  split at hfin
  · simp only [List.mem_flatMap] at hfin
    obtain ⟨ps, -, hfin2⟩ := hfin
    split at hfin2
    · simp only [List.mem_singleton, Prod.mk.injEq] at hfin2
      obtain ⟨rfl, rfl⟩ := hfin2
      exact typeCands_mem hty
    · exact absurd hfin2 (List.not_mem_nil _)
  · exact absurd hfin (List.not_mem_nil _)

theorem scanAux_from_match {α : Type} (m : Bool → List Char → Option (α × List Char)) :
    ∀ (fuel : Nat) (b : Bool) (pos : Nat) (t : List Char),
      ∀ x ∈ scanAux m fuel b pos t, ∃ b' t' r, m b' t' = some (x.2, r) := by
  intro fuel
  induction fuel with
  | zero => intro b pos t x hx; simp [scanAux] at hx
  | succ n ih =>
      intro b pos t x hx
      simp only [scanAux] at hx
      cases hm : m b t with
      | none =>
          rw [hm] at hx
          cases t with
          | nil => simp at hx
          | cons c rest => exact ih _ (pos + 1) rest x hx
      | some capr =>
          obtain ⟨cap, r⟩ := capr
          rw [hm] at hx
          simp only at hx
          by_cases hc : (t.length - r.length == 0) = true
          · rw [if_pos hc] at hx
            cases t with
            | nil =>
                rcases List.mem_singleton.mp hx with rfl
                exact ⟨b, [], r, hm⟩
            | cons c rest =>
                rcases List.mem_cons.mp hx with rfl | hx1
                · exact ⟨b, c :: rest, r, hm⟩
                · exact ih _ (pos + 1) rest x hx1
          · rw [if_neg hc] at hx
            rcases List.mem_cons.mp hx with rfl | hx1
            · exact ⟨b, t, r, hm⟩
            · exact ih _ _ r x hx1

theorem matchFieldAt_ftype {b : Bool} {t : List Char} {cap : FieldCap} {r : List Char}
    (h : matchFieldAt b t = some (cap, r)) : typeTokenOk cap.ftype = true := by
  unfold matchFieldAt at h
  have hmem : (cap, r) ∈ fieldCandidates b t := List.mem_of_mem_head? (by simp [h])
  exact fieldCandidates_ftype hmem

theorem matchMethodAt_rtype {b : Bool} {t : List Char} {cap : MethodCap} {r : List Char}
    (h : matchMethodAt b t = some (cap, r)) : typeTokenOk cap.rtype = true := by
  unfold matchMethodAt at h
  have hmem : (cap, r) ∈ methodCandidates b t := List.mem_of_mem_head? (by simp [h])
  exact methodCandidates_rtype hmem

/-- C10: the member patterns admit only a type token of the form
word-run plus at most one bracketed argument list, so every field type
and method return type in any extracted record satisfies `typeTokenOk`;
a doubly nested generic such as `Map<String, List<Integer>>` fails
`typeTokenOk` and its declaration is never recognised as a member even
when annotated — while the same declaration with a single-level generic
is recognised. -/
theorem c10_member_types_single_level_generics :
    (∀ t cls, parse_file t = Except.ok (some cls) →
      (∀ f ∈ cls.fields, typeTokenOk f.field_type = true) ∧
      (∀ m ∈ cls.methods, typeTokenOk m.return_type = true)) ∧
    typeTokenOk ("Map<String, List<Integer>>".toList) = false ∧
    parse_file exNestedGeneric = Except.ok (some (ApexClass.mk ("A".toList) [] [])) ∧
    parse_file exSingleGeneric = Except.ok (some (ApexClass.mk ("A".toList)
      [ApexField.mk ("data".toList) ("List<Integer>".toList) false] [])) := by
  refine ⟨?_, by decide, by decide, by decide⟩
  intro t cls h
  obtain ⟨-, -, hf, hm⟩ := parse_file_ok_some_inv h
  constructor
  · intro f hfmem
    rw [hf] at hfmem
    unfold extractFields at hfmem
    obtain ⟨pc, hpc, hsome⟩ := List.mem_filterMap.mp hfmem
    split at hsome
    · obtain rfl := Option.some.inj hsome
      obtain ⟨b', t', r, hmt⟩ := scanAux_from_match matchFieldAt _ _ _ _ pc hpc
      exact matchFieldAt_ftype hmt
    · exact absurd hsome (by simp)
  · intro mm hmmem
    rw [hm] at hmmem
    unfold extractMethods at hmmem
    obtain ⟨pc, hpc, hsome⟩ := List.mem_filterMap.mp hmmem
    split at hsome
    · obtain rfl := Option.some.inj hsome
      obtain ⟨b', t', r, hmt⟩ := scanAux_from_match matchMethodAt _ _ _ _ pc hpc
      exact matchMethodAt_rtype hmt
    · exact absurd hsome (by simp)

/-- C10 witness: the type-shape theorem applied to the record extracted
from `exSingleGeneric`. -/
theorem c10_member_types_single_level_generics_witness :
    typeTokenOk ("List<Integer>".toList) = true := by
  have h := (c10_member_types_single_level_generics.1 exSingleGeneric
    (ApexClass.mk ("A".toList)
      [ApexField.mk ("data".toList) ("List<Integer>".toList) false] [])
    (by decide)).1
  exact h (ApexField.mk ("data".toList) ("List<Integer>".toList) false) (by decide)
